import Mathlib

/-!
Verification of the `debug-tree` crate: a shallow embedding of `src/tree.rs`,
`src/internal.rs` and `src/lib.rs` into Lean, together with proofs of the
specified properties of the tree builder and renderer.

Conventions of the embedding:
* `Vec<T>` becomes `List T`; `Option<String>` becomes `Option String`.
* The mutable tree behind `Arc<Mutex<_>>` becomes a value threaded through
  explicit state passing (single-handle usage).
* Code that can panic (usize underflow, out-of-range slicing) is embedded as
  an `Option`-returning function, `none` marking the panic.
* `at_mut`, which returns a mutable reference, is split into the pure lookup
  `Tree.at?` and the functional update `Tree.modifyAt` applied at the same
  path.
-/

namespace DebugTree

/-- Tree node from `src/tree.rs`: optional `text` plus ordered `children`. -/
inductive Tree where
  | mk (text : Option String) (children : List Tree)

/-- Projection for the `text` field of `Tree`. -/
def Tree.text : Tree → Option String
  | ⟨t, _⟩ => t

/-- Projection for the `children` field of `Tree`. -/
def Tree.children : Tree → List Tree
  | ⟨_, c⟩ => c

/-- `Tree::new`: a node with optional text and no children. -/
def Tree.new (text : Option String) : Tree := ⟨text, []⟩

/-- Helper: apply `f` to the element at index `n`, leaving the list unchanged
when the index is out of range. Used to model in-place mutation of one child. -/
def modNth (f : α → α) : Nat → List α → List α
  | _, [] => []
  | 0, a :: as => f a :: as
  | n + 1, a :: as => a :: modNth f n as

/-- Lookup half of `Tree::at_mut`: follow `path` through `children`,
returning `none` if any index is out of bounds. -/
def Tree.at? : Tree → List Nat → Option Tree
  | t, [] => some t
  | t, i :: rest =>
    match t.children[i]? with
    | some c => Tree.at? c rest
    | none => none

/-- Update half of `Tree::at_mut`: apply `f` to the node addressed by `path`,
leaving the tree unchanged when the path does not resolve. -/
def Tree.modifyAt : Tree → List Nat → (Tree → Tree) → Tree
  | t, [], f => f t
  | t, i :: rest, f => ⟨t.text, modNth (fun c => Tree.modifyAt c rest f) i t.children⟩

/-- Model of `x.children.push(c)` on the node `x`. -/
def Tree.pushChild (c : Tree) (t : Tree) : Tree := ⟨t.text, t.children ++ [c]⟩

/-- Position of a node relative to its siblings, from `src/tree.rs`. -/
inductive Position where
  | Inside
  | First
  | Last
  | Only

/-- Run of `n` spaces, as produced by the `{:indent$}` format padding. -/
def spacesStr (n : Nat) : String := String.mk (List.replicate n ' ')

/-- Run of `n` horizontal-rule glyphs, as produced by `"─".repeat(n)`. -/
def hruleStr (n : Nat) : String := String.mk (List.replicate n '─')

/-- Character-level model of `str::replace` for the one-character pattern
`"\n"`: every newline is replaced by the replacement list. -/
def replaceNLChars (r : List Char) : List Char → List Char
  | [] => []
  | c :: cs => if c = '\n' then r ++ replaceNLChars r cs else c :: replaceNLChars r cs

/-- Model of `x.replace("\n", r)`. -/
def replaceNL (s r : String) : String := String.mk (replaceNLChars r.data s.data)

/-- Model of `x.contains("\n")` for the one-character pattern. -/
def containsNL (s : String) : Bool := s.data.contains '\n'

mutual
/-- `Tree::lines` from `src/tree.rs`: render the subtree as a list of lines.
`does_continue` holds one flag per column saying whether the vertical guide
continues there. Note `indent - 1` and `indent - 2` are truncated subtraction
here; the Rust code would panic for `indent < 2` in debug builds. -/
def Tree.lines : Tree → List Bool → Nat → Nat → Nat → List String
  | t, does_continue, index, pool_size, indent =>
    let position : Position :=
      if pool_size = 1 then .Only
      else if index = pool_size - 1 then .Last
      else if index = 0 then .First
      else .Inside
    let next_continue := does_continue ++
      [match position with
       | .Inside | .First => true
       | .Last | .Only => false]
    let txt :=
      if does_continue.length > 1 then
        let base := String.join ((does_continue.drop 2).map
          (fun i => (if i then "│" else " ") ++ spacesStr (indent - 1)))
        let conn := (match position with
          | .Only | .Last => "└"
          | .First | .Inside => "├") ++ hruleStr (indent - 2) ++ "╼"
        let s := match t.text with
          | some x =>
            if containsNL x then
              " " ++ replaceNL x ("\n" ++ base ++
                (match position with
                 | .Only | .Last => " "
                 | _ => "│") ++ "  ")
            else " " ++ x
          | none => ""
        base ++ conn ++ s
      else
        match t.text with
        | some x => x
        | none => ""
    txt :: Tree.linesList t.children next_continue 0 t.children.length indent
termination_by t _ _ _ _ => sizeOf t
decreasing_by
  cases t
  simp [Tree.children]

/-- Rendering of a list of children in order, with a running sibling index,
modelling the `for (index, x) in self.children.iter().enumerate()` loop. -/
def Tree.linesList : List Tree → List Bool → Nat → Nat → Nat → List String
  | [], _, _, _, _ => []
  | c :: rest, next_continue, index, pool_size, indent =>
    Tree.lines c next_continue index pool_size indent ++
      Tree.linesList rest next_continue (index + 1) pool_size indent
termination_by cs _ _ _ _ => sizeOf cs
end

/-- `TreeBuilderBase` from `src/internal.rs` (the `Arc<Mutex<Tree>>` is a
plain value here; single-handle usage). -/
structure TreeBuilderBase where
  data : Tree
  path : List Nat
  dive_count : Nat
  indent : Nat

/-- `TreeBuilderBase::new`. -/
def TreeBuilderBase.new : TreeBuilderBase := ⟨Tree.new none, [], 1, 2⟩

/-- `TreeBuilderBase::set_indentation`. -/
def TreeBuilderBase.set_indentation (s : TreeBuilderBase) (indent : Nat) : TreeBuilderBase :=
  { s with indent := indent }

/-- Body of the `for i in 0..dive_count` loop of `add_leaf`, by remaining
iteration count: look up the node at `path`, push a new child (the caller's
text on the final iteration, `None` before), and push the new child's index
onto `path`; on lookup failure nothing is pushed to the tree and the local
`n = 0` is pushed onto the path. -/
def diveSteps (text : String) : Nat → Tree → List Nat → Tree × List Nat
  | 0, data, path => (data, path)
  | k + 1, data, path =>
    match Tree.at? data path with
    | some x =>
      diveSteps text k
        (Tree.modifyAt data path (Tree.pushChild (Tree.new (if k = 0 then some text else none))))
        (path ++ [x.children.length])
    | none => diveSteps text k data (path ++ [0])

/-- `TreeBuilderBase::add_leaf`. In the `dive_count == 0` branch the Rust code
slices `&self.path[..self.path.len() - 1]`, which panics when `path` is empty;
that panic is the `none` result. -/
def TreeBuilderBase.add_leaf? (text : String) (s : TreeBuilderBase) : Option TreeBuilderBase :=
  if 0 < s.dive_count then
    let dp := diveSteps text s.dive_count s.data s.path
    some { s with data := dp.1, path := dp.2, dive_count := 0 }
  else
    match s.path with
    | [] => none
    | _ :: _ =>
      match Tree.at? s.data s.path.dropLast with
      | some _ =>
        some { s with
          data := Tree.modifyAt s.data s.path.dropLast (Tree.pushChild (Tree.new (some text))),
          path := s.path.dropLast ++
            [(match s.path.getLast? with
              | some k => k + 1
              | none => 0)] }
      | none => some s

/-- `TreeBuilderBase::enter`: increment `dive_count` only. -/
def TreeBuilderBase.enter (s : TreeBuilderBase) : TreeBuilderBase :=
  { s with dive_count := s.dive_count + 1 }

/-- `TreeBuilderBase::exit`: consume one pending descent, else pop the path
when its length exceeds 1, else report `false`. -/
def TreeBuilderBase.exit (s : TreeBuilderBase) : Bool × TreeBuilderBase :=
  if 0 < s.dive_count then (true, { s with dive_count := s.dive_count - 1 })
  else if 1 < s.path.length then (true, { s with path := s.path.dropLast })
  else (false, s)

/-- `TreeBuilderBase::depth`, i.e. `path.len() + dive_count - 1` on `usize`;
`none` models the underflow (panic in debug builds) when both are zero. -/
def TreeBuilderBase.depth? (s : TreeBuilderBase) : Option Nat :=
  if s.path.length + s.dive_count = 0 then none
  else some (s.path.length + s.dive_count - 1)

/-- `TreeBuilderBase::clear`: `*self = Self::new()`. -/
def TreeBuilderBase.clear (_s : TreeBuilderBase) : TreeBuilderBase := TreeBuilderBase.new

/-- `TreeBuilderBase::peek_string`: join all rendered lines but the first. -/
def TreeBuilderBase.peek_string (s : TreeBuilderBase) : String :=
  String.intercalate "\n" ((Tree.lines s.data [] 0 1 s.indent).drop 1)

/-- `TreeBuilderBase::flush_string`: peek, then clear. -/
def TreeBuilderBase.flush_string (s : TreeBuilderBase) : String × TreeBuilderBase :=
  (s.peek_string, s.clear)

/-- Public `TreeBuilder` facade from `src/lib.rs`. Modelled from the spec:
the `enabled` flag and its accessors are not present in `src/internal.rs`
even though `src/lib.rs` calls them, so the flag is stored here on the
facade, defaulting to `true`; `clear` replaces only Tree+Cursor state. -/
structure TreeBuilder where
  base : TreeBuilderBase
  enabled : Bool

/-- `TreeBuilder::new`. -/
def TreeBuilder.new : TreeBuilder := ⟨TreeBuilderBase.new, true⟩

/-- `TreeBuilder::is_enabled`. -/
def TreeBuilder.is_enabled (b : TreeBuilder) : Bool := b.enabled

/-- `TreeBuilder::set_enabled`. -/
def TreeBuilder.set_enabled (b : TreeBuilder) (e : Bool) : TreeBuilder := { b with enabled := e }

/-- `TreeBuilder::add_leaf`: gated on the enabled flag. -/
def TreeBuilder.add_leaf? (b : TreeBuilder) (text : String) : Option TreeBuilder :=
  if b.enabled then (TreeBuilderBase.add_leaf? text b.base).map (fun s => { b with base := s })
  else some b

/-- `TreeBuilder::enter`: gated on the enabled flag. -/
def TreeBuilder.enter (b : TreeBuilder) : TreeBuilder :=
  if b.enabled then { b with base := b.base.enter } else b

/-- `TreeBuilder::exit`: gated on the enabled flag, `false` when disabled. -/
def TreeBuilder.exit (b : TreeBuilder) : Bool × TreeBuilder :=
  if b.enabled then
    let rs := b.base.exit
    (rs.1, { b with base := rs.2 })
  else (false, b)

/-- `TreeBuilder::depth`: not gated. -/
def TreeBuilder.depth? (b : TreeBuilder) : Option Nat := b.base.depth?

/-- `TreeBuilder::peek_string`: not gated. -/
def TreeBuilder.peek_string (b : TreeBuilder) : String := b.base.peek_string

/-- `TreeBuilder::clear`: not gated. -/
def TreeBuilder.clear (b : TreeBuilder) : TreeBuilder := { b with base := b.base.clear }

/-- `TreeBuilder::flush_string`: peek then clear, not gated. -/
def TreeBuilder.flush_string (b : TreeBuilder) : String × TreeBuilder := (b.peek_string, b.clear)

/-- `TreeBuilder::set_indentation`: not gated. -/
def TreeBuilder.set_indentation (b : TreeBuilder) (n : Nat) : TreeBuilder :=
  { b with base := b.base.set_indentation n }

/-- Modelled from the spec: `src/scoped_branch.rs` is absent from the sources;
per section 4.3 a `ScopedBranch` is an armed guard, disarmed after `release`,
with a separate null variant for guards created while disabled. -/
inductive ScopedBranch where
  | null
  | armed
  | released

/-- Modelled from the spec: `ScopedBranch::new(builder)` calls
`builder.enter()` (the gated public operation) and returns an armed guard. -/
def ScopedBranch.new (b : TreeBuilder) : TreeBuilder × ScopedBranch := (b.enter, .armed)

/-- Modelled from the spec: `release` calls the gated `builder.exit()` exactly
once when armed and disarms; released and null guards do nothing. -/
def ScopedBranch.release : ScopedBranch → TreeBuilder → ScopedBranch × TreeBuilder
  | .armed, b => (.released, (b.exit).2)
  | g, b => (g, b)

/-- `TreeBuilder::add_branch`: `add_leaf` then `ScopedBranch::new`,
unconditionally — `src/lib.rs` does not special-case the disabled state
here, unlike `enter_scoped`. -/
def TreeBuilder.add_branch? (b : TreeBuilder) (text : String) :
    Option (TreeBuilder × ScopedBranch) :=
  (b.add_leaf? text).map ScopedBranch.new

/-- `TreeBuilder::enter_scoped`: an armed guard when enabled, a null guard
when disabled. -/
def TreeBuilder.enter_scoped (b : TreeBuilder) : TreeBuilder × ScopedBranch :=
  if b.is_enabled then ScopedBranch.new b else (b, .null)

/-- Core cursor operations of `TreeBuilderBase`, for quantifying over
operation sequences on a single handle. -/
inductive BOp where
  | addLeaf (text : String)
  | enter
  | exit

/-- Run a sequence of core operations; `none` when a step panics. -/
def runBase : TreeBuilderBase → List BOp → Option TreeBuilderBase
  | s, [] => some s
  | s, BOp.addLeaf t :: rest =>
    match TreeBuilderBase.add_leaf? t s with
    | some s2 => runBase s2 rest
    | none => none
  | s, BOp.enter :: rest => runBase s.enter rest
  | s, BOp.exit :: rest => runBase (s.exit).2 rest

/-- Public operations named by the spec's steady-state clause (guard-free
subset of the `TreeBuilder` interface). -/
inductive POp where
  | leaf (text : String)
  | enter
  | exit
  | depth
  | peek
  | flush
  | clear

/-- Run a sequence of public operations; `none` when a step panics (the
values returned by `depth`, `peek_string` and `flush_string` are discarded,
but evaluating a panicking `depth` still aborts the run). -/
def runPub : TreeBuilder → List POp → Option TreeBuilder
  | b, [] => some b
  | b, POp.leaf t :: rest =>
    match b.add_leaf? t with
    | some b2 => runPub b2 rest
    | none => none
  | b, POp.enter :: rest => runPub b.enter rest
  | b, POp.exit :: rest => runPub (b.exit).2 rest
  | b, POp.depth :: rest =>
    match b.depth? with
    | some _ => runPub b rest
    | none => none
  | b, POp.peek :: rest => runPub b rest
  | b, POp.flush :: rest => runPub (b.flush_string).2 rest
  | b, POp.clear :: rest => runPub b.clear rest

/-- Calls available during a disabled period in the spec's Scenario D:
`add_leaf`, or `add_branch` whose guard is released immediately (while the
builder is still in whatever state the call left it). -/
inductive DOp where
  | leaf (text : String)
  | branchReleased (text : String)

/-- Run a sequence of Scenario-D calls. -/
def runD : TreeBuilder → List DOp → Option TreeBuilder
  | b, [] => some b
  | b, DOp.leaf t :: rest =>
    match b.add_leaf? t with
    | some b2 => runD b2 rest
    | none => none
  | b, DOp.branchReleased t :: rest =>
    match b.add_branch? t with
    | some bg => runD (ScopedBranch.release bg.2 bg.1).2 rest
    | none => none

/-- Balance check for an operation sequence: starting from `c` unmatched
`enter`s, every `exit` must match an earlier `enter`; returns the final
count of unmatched `enter`s. A sequence is balanced from a state when this
returns `some 0` on credit `0`. -/
def finalSurplus : List BOp → Nat → Option Nat
  | [], c => some c
  | BOp.enter :: rest, c => finalSurplus rest (c + 1)
  | BOp.exit :: rest, c + 1 => finalSurplus rest c
  | BOp.exit :: _, 0 => none
  | BOp.addLeaf _ :: rest, c => finalSurplus rest c

/-- The cursor-path invariant of claim C10: at every level, the path indexes
the last child of the node above it. -/
def rightSpine : Tree → List Nat → Bool
  | _, [] => true
  | t, i :: rest =>
    match t.children[i]? with
    | some c => (i + 1 == t.children.length) && rightSpine c rest
    | none => false

/-- Strict variant of the `add_leaf` dive loop: aborts with `none` where the
source loop would take its silent lookup-failure fallback. -/
def diveStepsStrict (text : String) : Nat → Tree → List Nat → Option (Tree × List Nat)
  | 0, data, path => some (data, path)
  | k + 1, data, path =>
    match Tree.at? data path with
    | some x =>
      diveStepsStrict text k
        (Tree.modifyAt data path (Tree.pushChild (Tree.new (if k = 0 then some text else none))))
        (path ++ [x.children.length])
    | none => none

/-- Strict variant of `add_leaf`: identical to `TreeBuilderBase.add_leaf?`
except that it aborts with `none` wherever the source would take a silent
lookup-failure fallback. Agreement of the two on a state means the fallback
branches are unreachable from it. -/
def add_leaf_strict (text : String) (s : TreeBuilderBase) : Option TreeBuilderBase :=
  if 0 < s.dive_count then
    (diveStepsStrict text s.dive_count s.data s.path).map
      (fun dp => { s with data := dp.1, path := dp.2, dive_count := 0 })
  else
    match s.path with
    | [] => none
    | _ :: _ =>
      match Tree.at? s.data s.path.dropLast with
      | some _ =>
        some { s with
          data := Tree.modifyAt s.data s.path.dropLast (Tree.pushChild (Tree.new (some text))),
          path := s.path.dropLast ++
            [(match s.path.getLast? with
              | some k => k + 1
              | none => 0)] }
      | none => none

@[simp]
theorem Tree.text_mk (t : Option String) (c : List Tree) : Tree.text ⟨t, c⟩ = t := rfl

@[simp]
theorem Tree.children_mk (t : Option String) (c : List Tree) : Tree.children ⟨t, c⟩ = c := rfl

theorem modNth_length (f : α → α) : ∀ (n : Nat) (l : List α), (modNth f n l).length = l.length := by
  intro n l
  induction l generalizing n with
  | nil => cases n <;> simp [modNth]
  | cons a as ih =>
    cases n with
    | zero => simp [modNth]
    | succ m => simp [modNth, ih]

theorem modNth_getElem?_self (f : α → α) : ∀ (n : Nat) (l : List α) (a : α),
    l[n]? = some a → (modNth f n l)[n]? = some (f a) := by
  intro n l
  induction l generalizing n with
  | nil => intro a h; simp at h
  | cons x xs ih =>
    intro a h
    cases n with
    | zero =>
      simp at h
      simp [modNth, h]
    | succ m =>
      simp at h
      simpa [modNth] using ih m a h

theorem getElem?_append_len (l : List α) (a : α) : (l ++ [a])[l.length]? = some a := by
  induction l with
  | nil => simp
  | cons x xs ih => simp [ih]

theorem rightSpine_at? : ∀ (p : List Nat) (t : Tree),
    rightSpine t p = true → ∃ x, Tree.at? t p = some x := by
  intro p
  induction p with
  | nil => intro t _; exact ⟨t, rfl⟩
  | cons i rest ih =>
    intro t h
    unfold rightSpine at h
    cases hc : t.children[i]? with
    | none => rw [hc] at h; simp at h
    | some c =>
      rw [hc] at h
      simp only [Bool.and_eq_true] at h
      obtain ⟨x, hx⟩ := ih c h.2
      exact ⟨x, by simp [Tree.at?, hc, hx]⟩

theorem rightSpine_dropLast : ∀ (p : List Nat) (t : Tree),
    rightSpine t p = true → rightSpine t p.dropLast = true := by
  intro p
  induction p with
  | nil => intro t h; simpa using h
  | cons i rest ih =>
    intro t h
    cases rest with
    | nil => simp [rightSpine]
    | cons j rest2 =>
      unfold rightSpine at h
      cases hc : t.children[i]? with
      | none => rw [hc] at h; simp at h
      | some c =>
        rw [hc] at h
        simp only [Bool.and_eq_true] at h
        have hd := ih c h.2
        show rightSpine t (i :: (j :: rest2).dropLast) = true
        unfold rightSpine
        rw [hc]
        simp only [Bool.and_eq_true]
        exact ⟨h.1, hd⟩

theorem at?_modifyAt : ∀ (p : List Nat) (t x : Tree) (f : Tree → Tree),
    Tree.at? t p = some x → Tree.at? (Tree.modifyAt t p f) p = some (f x) := by
  intro p
  induction p with
  | nil =>
    intro t x f h
    simp [Tree.at?] at h
    subst h
    simp [Tree.modifyAt, Tree.at?]
  | cons i rest ih =>
    intro t x f h
    unfold Tree.at? at h
    cases hc : t.children[i]? with
    | none => rw [hc] at h; simp at h
    | some c =>
      rw [hc] at h
      have hrec := ih c x f h
      show Tree.at? ⟨t.text, modNth (fun d => Tree.modifyAt d rest f) i t.children⟩ (i :: rest) = some (f x)
      unfold Tree.at?
      rw [Tree.children_mk, modNth_getElem?_self _ i t.children c hc]
      exact hrec

theorem rightSpine_push : ∀ (p : List Nat) (t x c : Tree),
    rightSpine t p = true → Tree.at? t p = some x →
    rightSpine (Tree.modifyAt t p (Tree.pushChild c)) (p ++ [x.children.length]) = true := by
  intro p
  induction p with
  | nil =>
    intro t x c _ hat
    have hx : x = t := by
      have h2 := hat
      simp [Tree.at?] at h2
      exact h2.symm
    subst hx
    show rightSpine (Tree.pushChild c x) ([] ++ [x.children.length]) = true
    simp only [List.nil_append]
    unfold rightSpine
    rw [show (Tree.pushChild c x).children = x.children ++ [c] from rfl]
    rw [getElem?_append_len]
    simp [rightSpine]
  | cons i rest ih =>
    intro t x c hs hat
    unfold rightSpine at hs
    unfold Tree.at? at hat
    cases hc : t.children[i]? with
    | none => rw [hc] at hs; simp at hs
    | some ch =>
      rw [hc] at hs hat
      simp only [Bool.and_eq_true] at hs
      have hrec := ih ch x c hs.2 hat
      show rightSpine ⟨t.text, modNth (fun d => Tree.modifyAt d rest (Tree.pushChild c)) i t.children⟩
        ((i :: rest) ++ [x.children.length]) = true
      simp only [List.cons_append]
      unfold rightSpine
      rw [Tree.children_mk, modNth_getElem?_self _ i t.children ch hc]
      simp only [Bool.and_eq_true]
      constructor
      · rw [modNth_length]
        exact hs.1
      · exact hrec

theorem rightSpine_concat : ∀ (p : List Nat) (k : Nat) (t : Tree),
    rightSpine t (p ++ [k]) = true →
    ∃ parent, Tree.at? t p = some parent ∧ k + 1 = parent.children.length := by
  intro p
  induction p with
  | nil =>
    intro k t h
    simp only [List.nil_append] at h
    refine ⟨t, rfl, ?_⟩
    unfold rightSpine at h
    cases hc : t.children[k]? with
    | none => rw [hc] at h; simp at h
    | some c =>
      rw [hc] at h
      simp only [Bool.and_eq_true, beq_iff_eq] at h
      exact h.1
  | cons i rest ih =>
    intro k t h
    simp only [List.cons_append] at h
    unfold rightSpine at h
    cases hc : t.children[i]? with
    | none => rw [hc] at h; simp at h
    | some c =>
      rw [hc] at h
      simp only [Bool.and_eq_true] at h
      obtain ⟨parent, hp, hk⟩ := ih k c h.2
      refine ⟨parent, ?_, hk⟩
      unfold Tree.at?
      rw [hc]
      exact hp

theorem diveSteps_length (text : String) : ∀ (k : Nat) (d : Tree) (p : List Nat),
    (diveSteps text k d p).2.length = p.length + k := by
  intro k
  induction k with
  | zero => intro d p; simp [diveSteps]
  | succ m ih =>
    intro d p
    unfold diveSteps
    cases hc : Tree.at? d p with
    | some x =>
      rw [ih]
      simp
      omega
    | none =>
      rw [ih]
      simp
      omega

theorem diveSteps_strict_spine (text : String) : ∀ (k : Nat) (d : Tree) (p : List Nat),
    rightSpine d p = true →
    diveStepsStrict text k d p = some (diveSteps text k d p) ∧
    rightSpine (diveSteps text k d p).1 (diveSteps text k d p).2 = true := by
  intro k
  induction k with
  | zero =>
    intro d p h
    exact ⟨rfl, by simpa [diveSteps] using h⟩
  | succ m ih =>
    intro d p h
    obtain ⟨x, hx⟩ := rightSpine_at? p d h
    have hspine := rightSpine_push p d x (Tree.new (if m = 0 then some text else none)) h hx
    unfold diveSteps diveStepsStrict
    rw [hx]
    exact ih _ _ hspine

theorem add_leaf_measure (text : String) (s : TreeBuilderBase)
    (h : 1 ≤ s.path.length + s.dive_count) :
    ∃ s2, TreeBuilderBase.add_leaf? text s = some s2 ∧
      s2.path.length + s2.dive_count = s.path.length + s.dive_count := by
  by_cases hd : 0 < s.dive_count
  · unfold TreeBuilderBase.add_leaf?
    rw [if_pos hd]
    refine ⟨_, rfl, ?_⟩
    simp [diveSteps_length]
  · have hd0 : s.dive_count = 0 := by omega
    cases hpath : s.path with
    | nil =>
      exfalso
      rw [hpath, hd0] at h
      simp at h
    | cons a rest =>
      unfold TreeBuilderBase.add_leaf?
      rw [if_neg hd, hpath]
      cases hat : Tree.at? s.data ((a :: rest).dropLast) with
      | some parent =>
        refine ⟨_, rfl, ?_⟩
        simp [List.length_dropLast]
      | none =>
        exact ⟨s, rfl, by rw [hpath]⟩

theorem add_leaf_spine (text : String) (s : TreeBuilderBase)
    (h : rightSpine s.data s.path = true) :
    add_leaf_strict text s = TreeBuilderBase.add_leaf? text s ∧
    ∀ s2, TreeBuilderBase.add_leaf? text s = some s2 → rightSpine s2.data s2.path = true := by
  by_cases hd : 0 < s.dive_count
  · have hds := diveSteps_strict_spine text s.dive_count s.data s.path h
    unfold add_leaf_strict TreeBuilderBase.add_leaf?
    rw [if_pos hd, if_pos hd, hds.1]
    constructor
    · simp
    · intro s2 hs2
      have hs2' : { s with
          data := (diveSteps text s.dive_count s.data s.path).1,
          path := (diveSteps text s.dive_count s.data s.path).2,
          dive_count := 0 } = s2 := by
        simpa using hs2
      rw [← hs2']
      exact hds.2
  · cases hpath : s.path with
    | nil =>
      unfold add_leaf_strict TreeBuilderBase.add_leaf?
      rw [if_neg hd, if_neg hd, hpath]
      exact ⟨rfl, by intro s2 hs2; cases hs2⟩
    | cons a rest =>
      obtain ⟨p, k, hpk⟩ : ∃ p k, s.path = p ++ [k] := by
        rcases List.eq_nil_or_concat s.path with hnil | ⟨p, k, hc⟩
        · rw [hnil] at hpath; cases hpath
        · exact ⟨p, k, by simpa [List.concat_eq_append] using hc⟩
      have hdrop : s.path.dropLast = p := by rw [hpk]; exact List.dropLast_concat
      have hlast : s.path.getLast? = some k := by rw [hpk]; exact List.getLast?_concat _
      have hsp : rightSpine s.data (p ++ [k]) = true := by rw [← hpk]; exact h
      obtain ⟨parent, hparent, hklen⟩ := rightSpine_concat p k s.data hsp
      have hdrop2 : (a :: rest).dropLast = p := by rw [← hpath]; exact hdrop
      have hlast2 : (a :: rest).getLast? = some k := by rw [← hpath]; exact hlast
      unfold add_leaf_strict TreeBuilderBase.add_leaf?
      rw [if_neg hd, if_neg hd, hpath, hdrop2, hlast2, hparent]
      refine ⟨rfl, ?_⟩
      intro s2 hs2
      have hs2' : { s with
          data := Tree.modifyAt s.data p (Tree.pushChild (Tree.new (some text))),
          path := p ++
            [(match some k with
              | some k => k + 1
              | none => 0)] } = s2 := by
        simpa using hs2
      rw [← hs2']
      have hsp2 : rightSpine s.data p = true := by
        have := rightSpine_dropLast s.path s.data h
        rwa [hdrop] at this
      have hpush := rightSpine_push p s.data parent (Tree.new (some text)) hsp2 hparent
      show rightSpine
        (Tree.modifyAt s.data p (Tree.pushChild (Tree.new (some text)))) (p ++ [k + 1]) = true
      rw [show k + 1 = parent.children.length from hklen]
      exact hpush

theorem runBase_spine : ∀ (ops : List BOp) (s s2 : TreeBuilderBase),
    rightSpine s.data s.path = true → runBase s ops = some s2 →
    rightSpine s2.data s2.path = true := by
  intro ops
  induction ops with
  | nil =>
    intro s s2 h hr
    simp [runBase] at hr
    rwa [← hr]
  | cons op rest ih =>
    intro s s2 h hr
    cases op with
    | addLeaf t =>
      unfold runBase at hr
      cases ha : TreeBuilderBase.add_leaf? t s with
      | none => rw [ha] at hr; cases hr
      | some s1 =>
        rw [ha] at hr
        exact ih s1 s2 ((add_leaf_spine t s h).2 s1 ha) hr
    | enter =>
      unfold runBase at hr
      exact ih _ _ (by simpa [TreeBuilderBase.enter] using h) hr
    | exit =>
      unfold runBase at hr
      refine ih _ _ ?_ hr
      by_cases h1 : 0 < s.dive_count
      · simpa [TreeBuilderBase.exit, h1] using h
      · by_cases h2 : 1 < s.path.length
        · simp [TreeBuilderBase.exit, h1, h2]
          exact rightSpine_dropLast _ _ h
        · simpa [TreeBuilderBase.exit, h1, h2] using h

theorem runBase_surplus : ∀ (ops : List BOp) (c : Nat) (s : TreeBuilderBase) (c2 : Nat),
    1 + c ≤ s.path.length + s.dive_count → finalSurplus ops c = some c2 →
    ∃ s2, runBase s ops = some s2 ∧
      s2.path.length + s2.dive_count + c = s.path.length + s.dive_count + c2 := by
  intro ops
  induction ops with
  | nil =>
    intro c s c2 hm hf
    simp [finalSurplus] at hf
    exact ⟨s, by simp [runBase], by omega⟩
  | cons op rest ih =>
    intro c s c2 hm hf
    cases op with
    | addLeaf t =>
      obtain ⟨s1, ha, hmeq⟩ := add_leaf_measure t s (by omega)
      have hf2 : finalSurplus rest c = some c2 := by simpa [finalSurplus] using hf
      obtain ⟨s2, hr, hm2⟩ := ih c s1 c2 (by omega) hf2
      refine ⟨s2, ?_, by omega⟩
      unfold runBase
      rw [ha]
      exact hr
    | enter =>
      have hf2 : finalSurplus rest (c + 1) = some c2 := by simpa [finalSurplus] using hf
      obtain ⟨s2, hr, hm2⟩ := ih (c + 1) s.enter c2
        (by simp [TreeBuilderBase.enter]; omega) hf2
      refine ⟨s2, by simpa [runBase] using hr, ?_⟩
      simp [TreeBuilderBase.enter] at hm2
      omega
    | exit =>
      cases c with
      | zero => simp [finalSurplus] at hf
      | succ c0 =>
        have hf2 : finalSurplus rest c0 = some c2 := by simpa [finalSurplus] using hf
        have hstep : (s.exit).2.path.length + (s.exit).2.dive_count + 1 =
            s.path.length + s.dive_count := by
          by_cases h1 : 0 < s.dive_count
          · simp [TreeBuilderBase.exit, h1]
            omega
          · have hlen : 1 < s.path.length := by omega
            simp [TreeBuilderBase.exit, h1, hlen, List.length_dropLast]
            omega
        obtain ⟨s2, hr, hm3⟩ := ih c0 (s.exit).2 c2 (by omega) hf2
        exact ⟨s2, by simpa [runBase] using hr, by omega⟩

theorem runD_disabled : ∀ (ops : List DOp) (b : TreeBuilder),
    b.enabled = false → runD b ops = some b := by
  intro ops
  induction ops with
  | nil => intro b h; rfl
  | cons op rest ih =>
    intro b h
    cases op with
    | leaf t =>
      unfold runD
      rw [show b.add_leaf? t = some b from by simp [TreeBuilder.add_leaf?, h]]
      exact ih b h
    | branchReleased t =>
      have hb : b.add_branch? t = some (b, ScopedBranch.armed) := by
        simp [TreeBuilder.add_branch?, TreeBuilder.add_leaf?, h, ScopedBranch.new,
          TreeBuilder.enter]
      have hrel : (ScopedBranch.release ScopedBranch.armed b).2 = b := by
        simp [ScopedBranch.release, TreeBuilder.exit, h]
      simp only [runD, hb]
      show runD (ScopedBranch.release ScopedBranch.armed b).2 rest = some b
      rw [hrel]
      exact ih b h

theorem at?_concat : ∀ (p : List Nat) (t : Tree) (i : Nat),
    Tree.at? t (p ++ [i]) = (Tree.at? t p).bind (fun n => n.children[i]?) := by
  intro p
  induction p with
  | nil =>
    intro t i
    show Tree.at? t ([] ++ [i]) = (Tree.at? t []).bind fun n => n.children[i]?
    simp only [List.nil_append]
    show Tree.at? t [i] = t.children[i]?
    unfold Tree.at?
    cases hc : t.children[i]? with
    | some c => rfl
    | none => rfl
  | cons j rest ih =>
    intro t i
    simp only [List.cons_append]
    unfold Tree.at?
    cases hc : t.children[j]? with
    | some c => exact ih c i
    | none => simp

/-- Claim C1: from a fresh builder with default settings, the sequence
`add_leaf "1"; enter; add_leaf "1.1"; exit; add_leaf "2"` followed by
`flush_string` yields exactly `"1\n└╼ 1.1\n2"`. -/
theorem scenarioA_flush :
    (((TreeBuilder.new.add_leaf? "1").bind fun b1 =>
      ((b1.enter.add_leaf? "1.1").bind fun b2 =>
        ((b2.exit).2.add_leaf? "2"))).map fun b3 => (b3.flush_string).1) =
      some "1\n└╼ 1.1\n2" := by
  show some (String.intercalate "\n"
    ((Tree.lines ⟨none, [⟨some "1", [⟨some "1.1", []⟩]⟩, ⟨some "2", []⟩]⟩ [] 0 1 2).drop 1)) =
    some "1\n└╼ 1.1\n2"
  simp only [Tree.lines, Tree.linesList, Tree.children, Tree.text]
  decide

/-- Claim C2: the claim asserts every public-interface sequence is panic-free,
but `exit()` on a fresh enabled builder consumes the initial pending descent
(path `[]`, dive count `0`), after which `depth()` underflows `usize` and
`add_leaf` slices `path[..len - 1]` out of range: both runs abort. -/
theorem public_sequence_panics :
    runPub TreeBuilder.new [POp.exit, POp.depth] = none ∧
    runPub TreeBuilder.new [POp.exit, POp.leaf "x"] = none :=
  ⟨rfl, rfl⟩

/-- Claim C3 (counterexample): a guard built by `add_branch` while the builder
is disabled is an armed guard, not a null one; releasing it after re-enabling
performs a real `exit` (observable: `depth` changes from `some 0` to the
underflow `none`), and the claimed Scenario D continuation `add_leaf "X";
flush_string = "X"` instead panics (`none`), refuting the claim as stated. -/
theorem disabled_branch_guard_counterexample :
    (((TreeBuilder.new.set_enabled false).add_branch? "ignored").map Prod.snd) =
      some ScopedBranch.armed ∧
    TreeBuilder.depth? ((TreeBuilder.new.set_enabled false).set_enabled true) = some 0 ∧
    TreeBuilder.depth?
      (ScopedBranch.release ScopedBranch.armed
        ((TreeBuilder.new.set_enabled false).set_enabled true)).2 = none ∧
    (((TreeBuilder.new.set_enabled false).add_branch? "ignored").bind fun pg =>
      (((ScopedBranch.release pg.2 (pg.1.set_enabled true)).2.add_leaf? "X").map
        fun b2 => (b2.flush_string).1)) = none :=
  ⟨rfl, rfl, rfl, rfl⟩

/-- Claim C3 (amended): while disabled, `add_leaf`, `enter`, `exit`,
`enter_scoped` and `add_branch` leave the builder state unchanged;
`enter_scoped` produces a null guard, whose release is always a no-op,
whereas `add_branch` produces an armed guard; and Scenario D holds whenever
every disabled-period `add_branch` guard is released during the disabled
period: any such call sequence, then `set_enabled true`, then
`add_leaf "X"`, makes `flush_string` return exactly `"X"`. -/
theorem disabled_noops (b b2 : TreeBuilder) (t : String) (ops : List DOp)
    (h : b.enabled = false) :
    (b.add_leaf? t = some b ∧ b.enter = b ∧ b.exit = (false, b) ∧
     b.enter_scoped = (b, ScopedBranch.null) ∧
     b.add_branch? t = some (b, ScopedBranch.armed) ∧
     ScopedBranch.release ScopedBranch.null b2 = (ScopedBranch.null, b2) ∧
     runD b ops = some b) ∧
    (runD (TreeBuilder.new.set_enabled false) ops).bind
      (fun bd => ((bd.set_enabled true).add_leaf? "X").map fun b3 => (b3.flush_string).1) =
      some "X" := by
  constructor
  · refine ⟨?_, ?_, ?_, ?_, ?_, rfl, runD_disabled ops b h⟩
    · simp [TreeBuilder.add_leaf?, h]
    · simp [TreeBuilder.enter, h]
    · simp [TreeBuilder.exit, h]
    · simp [TreeBuilder.enter_scoped, TreeBuilder.is_enabled, h]
    · simp [TreeBuilder.add_branch?, TreeBuilder.add_leaf?, h, ScopedBranch.new,
        TreeBuilder.enter]
  · rw [runD_disabled ops (TreeBuilder.new.set_enabled false) rfl]
    show some (String.intercalate "\n"
      ((Tree.lines ⟨none, [⟨some "X", []⟩]⟩ [] 0 1 2).drop 1)) = some "X"
    simp only [Tree.lines, Tree.linesList, Tree.children, Tree.text]
    decide

/-- Witness for `disabled_noops` at a concrete disabled builder, guard
holder, text and Scenario D call sequence. -/
theorem disabled_noops_witness :
    TreeBuilder.enabled ⟨TreeBuilderBase.new, false⟩ = false ∧
    (((⟨TreeBuilderBase.new, false⟩ : TreeBuilder).add_leaf? "y" =
        some ⟨TreeBuilderBase.new, false⟩ ∧
      (⟨TreeBuilderBase.new, false⟩ : TreeBuilder).enter = ⟨TreeBuilderBase.new, false⟩ ∧
      (⟨TreeBuilderBase.new, false⟩ : TreeBuilder).exit =
        (false, ⟨TreeBuilderBase.new, false⟩) ∧
      (⟨TreeBuilderBase.new, false⟩ : TreeBuilder).enter_scoped =
        (⟨TreeBuilderBase.new, false⟩, ScopedBranch.null) ∧
      (⟨TreeBuilderBase.new, false⟩ : TreeBuilder).add_branch? "y" =
        some (⟨TreeBuilderBase.new, false⟩, ScopedBranch.armed) ∧
      ScopedBranch.release ScopedBranch.null TreeBuilder.new =
        (ScopedBranch.null, TreeBuilder.new) ∧
      runD ⟨TreeBuilderBase.new, false⟩ [DOp.leaf "a", DOp.branchReleased "b"] =
        some ⟨TreeBuilderBase.new, false⟩) ∧
     (runD (TreeBuilder.new.set_enabled false) [DOp.leaf "a", DOp.branchReleased "b"]).bind
       (fun bd => ((bd.set_enabled true).add_leaf? "X").map fun b3 => (b3.flush_string).1) =
       some "X") :=
  ⟨rfl, disabled_noops ⟨TreeBuilderBase.new, false⟩ TreeBuilder.new "y"
    [DOp.leaf "a", DOp.branchReleased "b"] rfl⟩

/-- Claim C4 (counterexample): three nested `add_branch` calls with texts
`"a"`, `"b"`, `"c"`, released innermost-first without adding children, do
leave `depth = 0`, but each `add_branch` adds a leaf, so the render is the
three-node chain rather than the claimed empty string. -/
theorem nested_add_branch_counterexample :
    ((TreeBuilder.new.add_branch? "a").bind fun p1 =>
      (p1.1.add_branch? "b").bind fun p2 =>
        (p2.1.add_branch? "c").map fun p3 =>
          ((((ScopedBranch.release p1.2
              (ScopedBranch.release p2.2
                (ScopedBranch.release p3.2 p3.1).2).2).2).depth?),
           (((ScopedBranch.release p1.2
              (ScopedBranch.release p2.2
                (ScopedBranch.release p3.2 p3.1).2).2).2).flush_string).1)) =
      some (some 0, "a\n└╼ b\n  └╼ c") ∧
    ("a\n└╼ b\n  └╼ c" : String) ≠ "" := by
  constructor
  · show some ((some 0 : Option Nat), String.intercalate "\n"
      ((Tree.lines ⟨none, [⟨some "a", [⟨some "b", [⟨some "c", []⟩]⟩]⟩]⟩ [] 0 1 2).drop 1)) =
      some (some 0, "a\n└╼ b\n  └╼ c")
    simp only [Tree.lines, Tree.linesList, Tree.children, Tree.text]
    decide
  · decide

/-- Claim C4 (amended): three nested textless scoped branches
(`enter_scoped`, the no-argument `add_branch!` form), each released without
adding children, leave `depth = 0` and an empty render — no empty branch
node materializes; with the text-bearing `add_branch` only the `depth = 0`
half survives. -/
theorem nested_scoped_branches_empty :
    ((ScopedBranch.release (TreeBuilder.new.enter_scoped).2
        (ScopedBranch.release ((TreeBuilder.new.enter_scoped).1.enter_scoped).2
          (ScopedBranch.release
              (((TreeBuilder.new.enter_scoped).1.enter_scoped).1.enter_scoped).2
              (((TreeBuilder.new.enter_scoped).1.enter_scoped).1.enter_scoped).1).2).2).2.depth?,
     (ScopedBranch.release (TreeBuilder.new.enter_scoped).2
        (ScopedBranch.release ((TreeBuilder.new.enter_scoped).1.enter_scoped).2
          (ScopedBranch.release
              (((TreeBuilder.new.enter_scoped).1.enter_scoped).1.enter_scoped).2
              (((TreeBuilder.new.enter_scoped).1.enter_scoped).1.enter_scoped).1).2).2).2.peek_string) =
      (some 0, "") ∧
    ((TreeBuilder.new.add_branch? "a").bind fun p1 =>
      (p1.1.add_branch? "b").bind fun p2 =>
        (p2.1.add_branch? "c").map fun p3 =>
          ((ScopedBranch.release p1.2
            (ScopedBranch.release p2.2
              (ScopedBranch.release p3.2 p3.1).2).2).2).depth?) = some (some 0) := by
  constructor
  · show ((some 0 : Option Nat), String.intercalate "\n"
      ((Tree.lines ⟨none, []⟩ [] 0 1 2).drop 1)) = (some 0, "")
    simp only [Tree.lines, Tree.linesList, Tree.children, Tree.text]
    decide
  · rfl

/-- Claim C5: `clear` restores exactly the freshly constructed state (tree,
path, dive count and indentation), so `flush_string` immediately followed by
`peek_string` yields the empty string from every state whatsoever. -/
theorem clear_resets (s : TreeBuilderBase) :
    TreeBuilderBase.clear s = TreeBuilderBase.new ∧
    TreeBuilderBase.peek_string ((TreeBuilderBase.flush_string s).2) = "" := by
  refine ⟨rfl, ?_⟩
  show String.intercalate "\n" ((Tree.lines ⟨none, []⟩ [] 0 1 2).drop 1) = ""
  simp only [Tree.lines, Tree.linesList, Tree.children, Tree.text]
  decide

/-- Claim C6 (counterexample): from the reachable state produced by a single
`exit` on a fresh builder (path `[]`, dive count `0`), the balanced sequence
`enter; add_leaf "a"; exit` changes `depth` from the underflow `none` to
`some 0`: depth is not preserved on every reachable state. -/
theorem balanced_depth_counterexample :
    runBase TreeBuilderBase.new [BOp.exit] = some ⟨⟨none, []⟩, [], 0, 2⟩ ∧
    finalSurplus [BOp.enter, BOp.addLeaf "a", BOp.exit] 0 = some 0 ∧
    TreeBuilderBase.depth? ⟨⟨none, []⟩, [], 0, 2⟩ = none ∧
    (runBase ⟨⟨none, []⟩, [], 0, 2⟩ [BOp.enter, BOp.addLeaf "a", BOp.exit]).map
      TreeBuilderBase.depth? = some (some 0) :=
  ⟨rfl, by decide, by decide, rfl⟩

/-- Claim C6 (amended): on every state whose `depth` does not underflow
(path length plus dive count at least 1 — all reachable states except the
one where `exit` has consumed the initial pending descent), every balanced
`enter`/`exit` sequence with interleaved `add_leaf`s runs without panic and
preserves `depth` exactly. -/
theorem balanced_depth_preserved (s : TreeBuilderBase) (ops : List BOp)
    (hm : 1 ≤ s.path.length + s.dive_count)
    (hb : finalSurplus ops 0 = some 0) :
    (runBase s ops).map TreeBuilderBase.depth? = some (TreeBuilderBase.depth? s) := by
  obtain ⟨s2, hr, hmeq⟩ := runBase_surplus ops 0 s 0 (by omega) hb
  rw [hr]
  have hm2 : s2.path.length + s2.dive_count = s.path.length + s.dive_count := by omega
  simp [TreeBuilderBase.depth?, hm2]

/-- Witness for `balanced_depth_preserved` on the fresh state and the
balanced sequence `enter; add_leaf "a"; exit`. -/
theorem balanced_depth_preserved_witness :
    1 ≤ TreeBuilderBase.new.path.length + TreeBuilderBase.new.dive_count ∧
    finalSurplus [BOp.enter, BOp.addLeaf "a", BOp.exit] 0 = some 0 ∧
    (runBase TreeBuilderBase.new [BOp.enter, BOp.addLeaf "a", BOp.exit]).map
      TreeBuilderBase.depth? = some (TreeBuilderBase.depth? TreeBuilderBase.new) :=
  ⟨by decide, by decide,
    balanced_depth_preserved TreeBuilderBase.new [BOp.enter, BOp.addLeaf "a", BOp.exit]
      (by decide) (by decide)⟩

/-- Claim C7: `enter` never touches the tree, and `enter` immediately
followed by `exit` returns `true` and restores exactly the prior state
(tree, path and dive count), on every state whatsoever — so a descent with
no intervening leaf never creates a node. -/
theorem enter_exit_roundtrip (s : TreeBuilderBase) :
    (s.enter).data = s.data ∧ (s.enter).path = s.path ∧ s.enter.exit = (true, s) := by
  refine ⟨rfl, rfl, ?_⟩
  unfold TreeBuilderBase.exit TreeBuilderBase.enter
  simp

/-- Claim C8: a leaf with text `"A\nB"` as the only child of a root-level
leaf renders (indent 2) as the two lines `"└╼ A"` and `"   B"`: the
continuation column is a blank, not a guide, and `B` sits at character
index 3, directly under `A`. -/
theorem scenarioC_multiline :
    ((TreeBuilder.new.add_leaf? "P").bind fun b1 =>
      (b1.enter.add_leaf? "A\nB").map fun b2 => b2.peek_string) =
      some "P\n└╼ A\n   B" ∧
    "└╼ A".data[3]? = some 'A' ∧
    "   B".data[3]? = some 'B' ∧
    "   B".data.take 3 = [' ', ' ', ' '] := by
  refine ⟨?_, by decide, by decide, by decide⟩
  show some (String.intercalate "\n"
    ((Tree.lines ⟨none, [⟨some "P", [⟨some "A\nB", []⟩]⟩]⟩ [] 0 1 2).drop 1)) =
    some "P\n└╼ A\n   B"
  simp only [Tree.lines, Tree.linesList, Tree.children, Tree.text]
  decide

/-- Claim C9 (counterexample): with the cursor on child 0 of a root with two
children, `add_leaf "c"` appends the new node as child 2 (the new last
child), but sets the cursor path to `[1]` — the old index plus one — not to
the index `2 = 3 - 1` of the newly appended sibling, refuting the claim for
general states satisfying only its stated hypotheses. -/
theorem add_leaf_sibling_counterexample :
    TreeBuilderBase.dive_count ⟨⟨none, [⟨some "a", []⟩, ⟨some "b", []⟩]⟩, [0], 0, 2⟩ = 0 ∧
    (Tree.at? (⟨none, [⟨some "a", []⟩, ⟨some "b", []⟩]⟩ : Tree) [0]).isSome = true ∧
    (TreeBuilderBase.add_leaf? "c" ⟨⟨none, [⟨some "a", []⟩, ⟨some "b", []⟩]⟩, [0], 0, 2⟩).map
      (fun s => (s.path, s.data.children.length)) = some ([1], 3) ∧
    ([1] : List Nat) ≠ [3 - 1] :=
  ⟨rfl, rfl, rfl, by decide⟩

/-- Claim C9 (amended): when `dive_count = 0` and the cursor path addresses
the last child of its parent (true in every reachable state), `add_leaf`
appends one node with the given text as a new last child of the parent
addressed by the path without its final index, leaves everything else
unchanged, keeps `dive_count` at 0, and moves the last path entry to
`k + 1`, which is then exactly the index of the newly appended sibling. -/
theorem add_leaf_sibling_amended (s : TreeBuilderBase) (text : String) (p : List Nat)
    (k : Nat) (parent : Tree)
    (hd : s.dive_count = 0) (hp : s.path = p ++ [k])
    (hat : Tree.at? s.data p = some parent)
    (hk : k + 1 = parent.children.length) :
    TreeBuilderBase.add_leaf? text s = some
      { s with
        data := Tree.modifyAt s.data p (Tree.pushChild (Tree.new (some text))),
        path := p ++ [k + 1] } ∧
    Tree.at? (Tree.modifyAt s.data p (Tree.pushChild (Tree.new (some text)))) (p ++ [k + 1]) =
      some (Tree.new (some text)) := by
  constructor
  · cases hpath : s.path with
    | nil => rw [hpath] at hp; simp at hp
    | cons a rest =>
      have hdrop2 : (a :: rest).dropLast = p := by
        rw [← hpath, hp]
        exact List.dropLast_concat
      have hlast2 : (a :: rest).getLast? = some k := by
        rw [← hpath, hp]
        exact List.getLast?_concat _
      unfold TreeBuilderBase.add_leaf?
      rw [if_neg (by omega), hpath, hdrop2, hlast2, hat]
  · rw [at?_concat, at?_modifyAt p s.data parent _ hat]
    show ((Tree.pushChild (Tree.new (some text)) parent).children[k + 1]?) =
      some (Tree.new (some text))
    rw [show (Tree.pushChild (Tree.new (some text)) parent).children =
      parent.children ++ [Tree.new (some text)] from rfl]
    rw [hk]
    exact getElem?_append_len _ _

/-- Witness for `add_leaf_sibling_amended` on a root with one child and the
cursor on it. -/
theorem add_leaf_sibling_amended_witness :
    (TreeBuilderBase.dive_count ⟨⟨none, [⟨some "a", []⟩]⟩, [0], 0, 2⟩ = 0 ∧
     TreeBuilderBase.path ⟨⟨none, [⟨some "a", []⟩]⟩, [0], 0, 2⟩ = [] ++ [0] ∧
     Tree.at? (⟨none, [⟨some "a", []⟩]⟩ : Tree) [] = some ⟨none, [⟨some "a", []⟩]⟩ ∧
     0 + 1 = (Tree.children ⟨none, [⟨some "a", []⟩]⟩).length) ∧
    (TreeBuilderBase.add_leaf? "c" ⟨⟨none, [⟨some "a", []⟩]⟩, [0], 0, 2⟩ =
        some ⟨⟨none, [⟨some "a", []⟩, ⟨some "c", []⟩]⟩, [1], 0, 2⟩ ∧
     Tree.at? (⟨none, [⟨some "a", []⟩, ⟨some "c", []⟩]⟩ : Tree) [1] =
       some ⟨some "c", []⟩) :=
  ⟨⟨rfl, rfl, rfl, rfl⟩,
    add_leaf_sibling_amended ⟨⟨none, [⟨some "a", []⟩]⟩, [0], 0, 2⟩ "c" [] 0
      ⟨none, [⟨some "a", []⟩]⟩ rfl rfl rfl rfl⟩

/-- Claim C10: in every state reachable from a fresh builder by `add_leaf`,
`enter` and `exit` on a single handle, the cursor path follows the rightmost
spine — each entry indexes the last child at its level — and consequently
`add_leaf` never takes a silent lookup-failure fallback: the strict
interpreter that aborts on fallback agrees with the source semantics. -/
theorem cursor_rightmost_spine (ops : List BOp) (s : TreeBuilderBase) (t : String)
    (h : runBase TreeBuilderBase.new ops = some s) :
    rightSpine s.data s.path = true ∧
    add_leaf_strict t s = TreeBuilderBase.add_leaf? t s := by
  have hs := runBase_spine ops TreeBuilderBase.new s rfl h
  exact ⟨hs, (add_leaf_spine t s hs).1⟩

/-- Witness for `cursor_rightmost_spine` on the run
`add_leaf "1"; enter; add_leaf "1.1"`. -/
theorem cursor_rightmost_spine_witness :
    runBase TreeBuilderBase.new [BOp.addLeaf "1", BOp.enter, BOp.addLeaf "1.1"] =
      some ⟨⟨none, [⟨some "1", [⟨some "1.1", []⟩]⟩]⟩, [0, 0], 0, 2⟩ ∧
    (rightSpine (⟨none, [⟨some "1", [⟨some "1.1", []⟩]⟩]⟩ : Tree) [0, 0] = true ∧
     add_leaf_strict "x" ⟨⟨none, [⟨some "1", [⟨some "1.1", []⟩]⟩]⟩, [0, 0], 0, 2⟩ =
       TreeBuilderBase.add_leaf? "x" ⟨⟨none, [⟨some "1", [⟨some "1.1", []⟩]⟩]⟩, [0, 0], 0, 2⟩) :=
  ⟨rfl, cursor_rightmost_spine [BOp.addLeaf "1", BOp.enter, BOp.addLeaf "1.1"]
    ⟨⟨none, [⟨some "1", [⟨some "1.1", []⟩]⟩]⟩, [0, 0], 0, 2⟩ "x" rfl⟩

end DebugTree
